import Mathlib

/-!
Shallow embedding of `src/conjugate_gradients.cpp` (distributed conjugate
gradient solver) over exact rational arithmetic.

Vectors are total functions `ℕ → ℚ`; a length-`N` C array `v` is the values
`v 0, …, v (N-1)` and the operations below touch exactly the indices the
C loops touch.  The row-major matrix `A` is a flat array, entry `(r, c)`
living at index `r * num_cols + c`, as in the source.  `P` is the MPI world
size (`size_mpi`); each MPI collective is modelled by its defining result
(sum over ranks for `MPI_Allreduce`, concatenation of the per-rank segments
for `MPI_Allgather`).  IEEE doubles are replaced by `ℚ`; note ℚ division by
zero yields 0 where IEEE yields NaN/Inf, which is flagged where it matters.
-/

namespace CG

/-- `dot` (source lines 64–70): serial dot product over `[0, size)`. -/
def dot (x y : ℕ → ℚ) (size : ℕ) : ℚ :=
  ∑ i ∈ Finset.range size, x i * y i

/-- `axpby` / `axpbyP` (source lines 72–84): `y[i] ← alpha*x[i] + beta*y[i]`
for `i ∈ [0, size)`; indices outside the loop range keep their old value.
The OpenMP pragma of `axpbyP` only parallelises the loop; elementwise the
two functions are identical. -/
def axpby (alpha : ℚ) (x : ℕ → ℚ) (beta : ℚ) (y : ℕ → ℚ) (size : ℕ) : ℕ → ℚ :=
  fun i => if i < size then alpha * x i + beta * y i else y i

/-- `local_num_rows = num_rows / size_mpi` (source line 102). -/
def localNumRows (num_rows P : ℕ) : ℕ := num_rows / P

/-- `start_row = rank * local_num_rows` (source line 103). -/
def startRow (rank num_rows P : ℕ) : ℕ := rank * localNumRows num_rows P

/-- `end_row` (source lines 104–105): `(rank+1)*local_num_rows`, overridden
to `num_rows` on the last rank. -/
def endRow (rank num_rows P : ℕ) : ℕ :=
  if rank = P - 1 then num_rows else (rank + 1) * localNumRows num_rows P

/-- The value the loop of source lines 108–115 stores into `local_y[j]`
(with `j = r - start_row`): `beta * y[r] + alpha * Σ_c A[r*num_cols+c] * x[c]`. -/
def gemvLocal (alpha : ℚ) (A x : ℕ → ℚ) (beta : ℚ) (y : ℕ → ℚ)
    (num_cols : ℕ) (rank num_rows P : ℕ) (j : ℕ) : ℚ :=
  beta * y (startRow rank num_rows P + j) +
    alpha * ∑ c ∈ Finset.range num_cols,
      A ((startRow rank num_rows P + j) * num_cols + c) * x c

/-- `MPI_Allgather` with `count` elements per rank (source line 117): index
`i < P * count` of the output is element `i % count` of rank `i / count`'s
contribution; indices past the gathered region keep the old buffer value. -/
def allGather (P count : ℕ) (contrib : ℕ → ℕ → ℚ) (y : ℕ → ℚ) : ℕ → ℚ :=
  fun i => if i < P * count then contrib (i / count) (i % count) else y i

/-- `gemvP` (source lines 97–120): distributed `y = alpha*A*x + beta*y`.
Each rank computes its row band into `local_y`, then the all-gather
reassembles `y` from the per-rank bands of `local_num_rows` entries. -/
def gemvP (alpha : ℚ) (A x : ℕ → ℚ) (beta : ℚ) (y : ℕ → ℚ)
    (num_rows num_cols P : ℕ) : ℕ → ℚ :=
  allGather P (localNumRows num_rows P)
    (fun rank => gemvLocal alpha A x beta y num_cols rank num_rows P) y

/-- `start = rank * local_size` with `local_size = size / size_mpi`
(source lines 127–128). -/
def segStart (rank size P : ℕ) : ℕ := rank * (size / P)

/-- `end = (rank == size_mpi - 1) ? size : start + local_size` (source line 129). -/
def segEnd (rank size P : ℕ) : ℕ :=
  if rank = P - 1 then size else segStart rank size P + size / P

/-- `dotP` (source lines 122–141): each rank sums `x[i]*y[i]` over its
segment `[start, end)`, and `MPI_Allreduce(MPI_SUM)` adds the per-rank
partial sums. -/
def dotP (x y : ℕ → ℚ) (size P : ℕ) : ℚ :=
  ∑ rank ∈ Finset.range P,
    ∑ i ∈ Finset.Ico (segStart rank size P) (segEnd rank size P), x i * y i

/-- The convergence test `sqrt(rr / bb) < rel_error` (source line 171),
expressed over ℚ: for a non-negative radicand and tolerance it is equivalent
to `rr / bb < rel_error ^ 2`; a negative radicand (IEEE NaN) or a negative
tolerance makes the C comparison false, hence the guards. -/
def convTest (rr bb rel_error : ℚ) : Bool :=
  decide (0 ≤ rr / bb) && decide (0 ≤ rel_error) && decide (rr / bb < rel_error ^ 2)

/-- The buffers and scalars of `conjugate_gradients` (source lines 143–151).
`A` and `b` are the `const double *` inputs, threaded through the state so
that the frame property "solve never writes A or b" is expressible. -/
structure CGState where
  A : ℕ → ℚ
  b : ℕ → ℚ
  x : ℕ → ℚ
  r : ℕ → ℚ
  p : ℕ → ℚ
  Ap : ℕ → ℚ
  rr : ℚ

/-- One pass of the loop body before the convergence branch (source lines
164–170): `Ap = gemvP(1, A, p, 0, Ap)`, `alpha = rr / dotP(p, Ap)`,
`x += alpha*p`, `r -= alpha*Ap`, `rr = rr_new = dotP(r, r)`. -/
def cgBody (size P : ℕ) (s : CGState) : CGState :=
  let Ap := gemvP 1 s.A s.p 0 s.Ap size size P
  let alpha := s.rr / dotP s.p Ap size P
  let x := axpby alpha s.p 1 s.x size
  let r := axpby (-alpha) Ap 1 s.r size
  let rr_new := dotP r r size P
  { s with x := x, r := r, Ap := Ap, rr := rr_new }

/-- The `for (num_iters = 1; num_iters <= max_iters; num_iters++)` loop
(source lines 163–175).  `remaining` counts the loop-condition successes
still allowed (`max_iters - num_iters + 1`); `num_iters` is the C variable,
returned with its final value, so exhaustion returns `max_iters + 1` while a
`break` returns the iteration index that converged.  `beta = rr_new / rr`
uses the previous `rr` (line 169) and is only consumed by the `p` update
(line 174), which the `break` of line 172 skips. -/
def cgLoop (size P : ℕ) (bb rel_error : ℚ) : ℕ → ℕ → CGState → CGState × ℕ
  | 0, num_iters, s => (s, num_iters)
  | remaining + 1, num_iters, s =>
    let t := cgBody size P s
    let beta := t.rr / s.rr
    if convTest t.rr bb rel_error then (t, num_iters)
    else cgLoop size P bb rel_error remaining (num_iters + 1)
      { t with p := axpby 1 t.r beta t.p size }

/-- The state after the initialisation of source lines 153–161: `x = 0`,
`r = p = b` on `[0, size)` (`x` keeps the caller's buffer contents above
`size`; the freshly allocated `r`, `p`, `Ap` are modelled as 0 where the
code never writes them — the scratch `Ap` is consumed only through
`beta = 0` in exact arithmetic), and `rr = bb = dotP(b, b)`. -/
def cgInitState (A b x : ℕ → ℚ) (size P : ℕ) : CGState :=
  { A := A, b := b,
    x := fun i => if i < size then 0 else x i,
    r := fun i => if i < size then b i else 0,
    p := fun i => if i < size then b i else 0,
    Ap := fun _ => 0,
    rr := dotP b b size P }

/-- `conjugate_gradients` (source lines 143–188) as a state transformer:
returns the final buffer state and the final value of `num_iters`. -/
def conjugate_gradients (A b x : ℕ → ℚ) (size max_iters : ℕ) (rel_error : ℚ)
    (P : ℕ) : CGState × ℕ :=
  cgLoop size P (dotP b b size P) rel_error max_iters 1 (cgInitState A b x size P)

/-- The branch of source line 182: rank 0 prints "Converged" exactly when
the final `num_iters ≤ max_iters`. -/
def reportsConverged (num_iters max_iters : ℕ) : Bool :=
  decide (num_iters ≤ max_iters)

/-- Number of executed loop-body iterations, recovered from the final
`num_iters`: the converged case executed `num_iters` bodies, exhaustion
(`num_iters = max_iters + 1`) executed `max_iters`. -/
def itersTaken (num_iters max_iters : ℕ) : ℕ := min num_iters max_iters

/-- Exact matrix–vector product `(A·x)[r] = Σ_c A[r*num_cols+c] * x[c]` of
the flat row-major matrix, used to state specifications of `gemvP`. -/
def matvec (A x : ℕ → ℚ) (num_cols : ℕ) : ℕ → ℚ :=
  fun r => ∑ c ∈ Finset.range num_cols, A (r * num_cols + c) * x c

/-! ### Partition and reduction lemmas -/

lemma sum_blocks (f : ℕ → ℚ) (c : ℕ) : ∀ m : ℕ,
    (∑ r ∈ Finset.range m, ∑ i ∈ Finset.Ico (r * c) ((r + 1) * c), f i)
      = ∑ i ∈ Finset.range (m * c), f i := by
  intro m
  induction m with
  | zero => simp
  | succ m ih =>
    rw [Finset.sum_range_succ, ih, Finset.range_eq_Ico]
    exact Finset.sum_Ico_consecutive f (Nat.zero_le (m * c))
      (Nat.mul_le_mul_right c (Nat.le_succ m))

lemma dotP_eq_dot (x y : ℕ → ℚ) (size P : ℕ) (hP : 1 ≤ P) :
    dotP x y size P = dot x y size := by
  obtain ⟨Q, rfl⟩ : ∃ Q, P = Q + 1 := ⟨P - 1, by omega⟩
  unfold dotP dot
  rw [Finset.sum_range_succ]
  have hmid : ∀ r ∈ Finset.range Q,
      (∑ i ∈ Finset.Ico (segStart r size (Q + 1)) (segEnd r size (Q + 1)), x i * y i)
        = ∑ i ∈ Finset.Ico (r * (size / (Q + 1))) ((r + 1) * (size / (Q + 1))), x i * y i := by
    intro r hr
    have hr' : r ≠ Q := by
      have := Finset.mem_range.mp hr; omega
    simp [segStart, segEnd, hr', Nat.succ_mul]
  rw [Finset.sum_congr rfl hmid, sum_blocks]
  have hlast : segEnd Q size (Q + 1) = size := by simp [segEnd]
  have hstart : segStart Q size (Q + 1) = Q * (size / (Q + 1)) := rfl
  have hle : Q * (size / (Q + 1)) ≤ size := by
    calc Q * (size / (Q + 1)) ≤ (size / (Q + 1)) * (Q + 1) := by
          rw [mul_comm]; exact Nat.mul_le_mul_left _ (Nat.le_succ Q)
      _ ≤ size := Nat.div_mul_le_self size (Q + 1)
  rw [hlast, hstart, Finset.range_eq_Ico,
    Finset.sum_Ico_consecutive (fun i => x i * y i) (Nat.zero_le _) hle]

lemma segEnd_le_size (rank size P : ℕ) (h : rank < P) : segEnd rank size P ≤ size := by
  unfold segEnd segStart
  by_cases hr : rank = P - 1
  · simp [hr]
  · simp only [hr, if_false]
    calc rank * (size / P) + size / P = (rank + 1) * (size / P) := by ring
      _ ≤ P * (size / P) := Nat.mul_le_mul_right _ (by omega)
      _ = size / P * P := mul_comm _ _
      _ ≤ size := Nat.div_mul_le_self size P

lemma dotP_eq_zero (x y : ℕ → ℚ) (size P : ℕ) (h : ∀ i < size, x i = 0) :
    dotP x y size P = 0 := by
  unfold dotP
  refine Finset.sum_eq_zero fun rank hrank => Finset.sum_eq_zero fun i hi => ?_
  have hi' : i < size := by
    have h1 := (Finset.mem_Ico.mp hi).2
    have h2 := segEnd_le_size rank size P (Finset.mem_range.mp hrank)
    omega
  rw [h i hi', zero_mul]

lemma dotP_self_nonneg (x : ℕ → ℚ) (size P : ℕ) : 0 ≤ dotP x x size P := by
  unfold dotP
  refine Finset.sum_nonneg fun rank _ => Finset.sum_nonneg fun j _ => mul_self_nonneg _

lemma dot_self_nonneg (x : ℕ → ℚ) (size : ℕ) : 0 ≤ dot x x size :=
  Finset.sum_nonneg fun _ _ => mul_self_nonneg _

lemma dotP_congr (x y x' y' : ℕ → ℚ) (size P : ℕ)
    (hx : ∀ i < size, x i = x' i) (hy : ∀ i < size, y i = y' i) :
    dotP x y size P = dotP x' y' size P := by
  unfold dotP
  refine Finset.sum_congr rfl fun rank hrank => Finset.sum_congr rfl fun i hi => ?_
  have hi' : i < size := by
    have h1 := (Finset.mem_Ico.mp hi).2
    have h2 := segEnd_le_size rank size P (Finset.mem_range.mp hrank)
    omega
  rw [hx i hi', hy i hi']

lemma gemvP_spec (alpha beta : ℚ) (A x y : ℕ → ℚ) (N P : ℕ)
    (hdvd : P ∣ N) :
    ∀ i < N, gemvP alpha A x beta y N N P i = beta * y i + alpha * matvec A x N i := by
  intro i hi
  have hN : P * localNumRows N P = N := Nat.mul_div_cancel' hdvd
  have hiPc : i < P * localNumRows N P := by rw [hN]; exact hi
  have hc : 0 < localNumRows N P := by
    rcases Nat.eq_zero_or_pos (localNumRows N P) with h0 | h0
    · rw [h0, Nat.mul_zero] at hiPc; omega
    · exact h0
  unfold gemvP allGather
  simp only [hiPc, if_true]
  have hrank : startRow (i / localNumRows N P) N P + i % localNumRows N P = i := by
    unfold startRow
    rw [mul_comm]
    exact Nat.div_add_mod i (localNumRows N P)
  unfold gemvLocal matvec
  rw [hrank]

lemma dot_congr (x y x' y' : ℕ → ℚ) (size : ℕ)
    (hx : ∀ i < size, x i = x' i) (hy : ∀ i < size, y i = y' i) :
    dot x y size = dot x' y' size :=
  Finset.sum_congr rfl fun i hi => by
    rw [hx i (Finset.mem_range.mp hi), hy i (Finset.mem_range.mp hi)]

/-! ### Loop lemmas -/

lemma cgLoop_num_iters_spec (size P : ℕ) (bb tol : ℚ) :
    ∀ (remaining num_iters : ℕ) (s : CGState),
      num_iters ≤ (cgLoop size P bb tol remaining num_iters s).2 ∧
      (cgLoop size P bb tol remaining num_iters s).2 ≤ num_iters + remaining ∧
      ((cgLoop size P bb tol remaining num_iters s).2 = num_iters + remaining ∨
        convTest (cgLoop size P bb tol remaining num_iters s).1.rr bb tol = true) := by
  intro remaining
  induction remaining with
  | zero => intro ni s; simp [cgLoop]
  | succ m ih =>
    intro ni s
    simp only [cgLoop]
    by_cases h : convTest (cgBody size P s).rr bb tol = true
    · rw [if_pos h]
      exact ⟨Nat.le_refl ni, Nat.le_add_right ni (m + 1), Or.inr h⟩
    · rw [if_neg h]
      obtain ⟨h1, h2, h3⟩ := ih (ni + 1)
        { cgBody size P s with
          p := axpby 1 (cgBody size P s).r ((cgBody size P s).rr / s.rr)
            (cgBody size P s).p size }
      set X := cgLoop size P bb tol m (ni + 1)
        { cgBody size P s with
          p := axpby 1 (cgBody size P s).r ((cgBody size P s).rr / s.rr)
            (cgBody size P s).p size } with hX
      refine ⟨by omega, by omega, ?_⟩
      rcases h3 with h3 | h3
      · exact Or.inl (by omega)
      · exact Or.inr h3

lemma cgLoop_frame (size P : ℕ) (bb tol : ℚ) :
    ∀ (remaining num_iters : ℕ) (s : CGState),
      (cgLoop size P bb tol remaining num_iters s).1.A = s.A ∧
        (cgLoop size P bb tol remaining num_iters s).1.b = s.b := by
  intro remaining
  induction remaining with
  | zero => intro ni s; simp [cgLoop]
  | succ m ih =>
    intro ni s
    simp only [cgLoop]
    by_cases h : convTest (cgBody size P s).rr bb tol = true
    · rw [if_pos h]
      exact ⟨rfl, rfl⟩
    · rw [if_neg h]
      obtain ⟨h1, h2⟩ := ih (ni + 1)
        { cgBody size P s with
          p := axpby 1 (cgBody size P s).r ((cgBody size P s).rr / s.rr)
            (cgBody size P s).p size }
      exact ⟨h1, h2⟩

lemma cgBody_rr_eq (size P : ℕ) (s : CGState) :
    (cgBody size P s).rr = dotP (cgBody size P s).r (cgBody size P s).r size P := rfl

lemma cgLoop_rr_nonneg (size P : ℕ) (bb tol : ℚ) :
    ∀ (remaining num_iters : ℕ) (s : CGState), 0 ≤ s.rr →
      0 ≤ (cgLoop size P bb tol remaining num_iters s).1.rr := by
  intro remaining
  induction remaining with
  | zero => intro ni s hs; simpa [cgLoop] using hs
  | succ m ih =>
    intro ni s _
    simp only [cgLoop]
    by_cases h : convTest (cgBody size P s).rr bb tol = true
    · rw [if_pos h]
      exact dotP_self_nonneg _ size P
    · rw [if_neg h]
      exact ih (ni + 1) _ (dotP_self_nonneg _ size P)

/-! ### Projection lemmas for the solver state -/

lemma cgInit_A (A b x : ℕ → ℚ) (size P : ℕ) : (cgInitState A b x size P).A = A := rfl

lemma cgInit_x (A b x : ℕ → ℚ) (size P : ℕ) :
    (cgInitState A b x size P).x = fun i => if i < size then 0 else x i := rfl

lemma cgInit_r (A b x : ℕ → ℚ) (size P : ℕ) :
    (cgInitState A b x size P).r = fun i => if i < size then b i else 0 := rfl

lemma cgInit_p (A b x : ℕ → ℚ) (size P : ℕ) :
    (cgInitState A b x size P).p = fun i => if i < size then b i else 0 := rfl

lemma cgInit_Ap (A b x : ℕ → ℚ) (size P : ℕ) :
    (cgInitState A b x size P).Ap = fun _ => 0 := rfl

lemma cgInit_rr (A b x : ℕ → ℚ) (size P : ℕ) :
    (cgInitState A b x size P).rr = dotP b b size P := rfl

lemma cgBody_Ap_eq (size P : ℕ) (s : CGState) :
    (cgBody size P s).Ap = gemvP 1 s.A s.p 0 s.Ap size size P := rfl

lemma cgBody_p_eq (size P : ℕ) (s : CGState) : (cgBody size P s).p = s.p := rfl

lemma cgBody_x_eq (size P : ℕ) (s : CGState) :
    (cgBody size P s).x
      = axpby (s.rr / dotP s.p (gemvP 1 s.A s.p 0 s.Ap size size P) size P)
          s.p 1 s.x size := rfl

lemma cgBody_r_eq (size P : ℕ) (s : CGState) :
    (cgBody size P s).r
      = axpby (-(s.rr / dotP s.p (gemvP 1 s.A s.p 0 s.Ap size size P) size P))
          (gemvP 1 s.A s.p 0 s.Ap size size P) 1 s.r size := rfl

lemma convTest_zero_rr (bb tol : ℚ) (ht : 0 < tol) : convTest 0 bb tol = true := by
  unfold convTest
  rw [zero_div]
  simp only [Bool.and_eq_true, decide_eq_true_eq]
  exact ⟨⟨le_refl 0, ht.le⟩, pow_pos ht 2⟩

/-! ### Claim theorems -/

/-- C3: for `P ≥ 1` participants and `N` an exact multiple of `P`, after
every participant calls `gemvP(alpha, A, x, beta, y, N, N)` the gathered
vector equals `alpha·A·x + beta·y_old` elementwise on `[0, N)`: entry `i`
is `alpha · Σ_c A[i*N+c]·x[c] + beta · y[i]` (exact arithmetic; the model's
gather result is rank-independent, so every participant holds the same
vector). -/
theorem gemvP_computes_full_matvec (alpha beta : ℚ) (A x y : ℕ → ℚ) (N P : ℕ)
    (_hP : 1 ≤ P) (hdvd : P ∣ N) :
    ∀ i < N, gemvP alpha A x beta y N N P i
      = alpha * (∑ c ∈ Finset.range N, A (i * N + c) * x c) + beta * y i := by
  intro i hi
  rw [gemvP_spec alpha beta A x y N P hdvd i hi]
  unfold matvec
  ring

theorem gemvP_computes_full_matvec_witness :
    ((1 ≤ 2 ∧ 2 ∣ 4) ∧
      ∀ i < 4, gemvP 3 (fun k : ℕ => (k : ℚ)) (fun c : ℕ => (c : ℚ) + 1) 5
          (fun j : ℕ => (j : ℚ) * 2) 4 4 2 i
        = 3 * (∑ c ∈ Finset.range 4, ((i * 4 + c : ℕ) : ℚ) * ((c : ℚ) + 1))
            + 5 * ((i : ℚ) * 2)) :=
  ⟨⟨by decide, by decide⟩,
    gemvP_computes_full_matvec 3 5 (fun k : ℕ => (k : ℚ)) (fun c : ℕ => (c : ℚ) + 1)
      (fun j : ℕ => (j : ℚ) * 2) 4 2 (by decide) (by decide)⟩

/-- C4: in exact arithmetic, for every `P ≥ 1` and every size the
distributed dot `dotP` (per-rank segments with the last rank taking the
remainder, then a sum-reduction over ranks) returns the same scalar as the
serial `dot` over the full range `[0, size)`. -/
theorem dotP_refines_dot (x y : ℕ → ℚ) (size P : ℕ) (hP : 1 ≤ P) :
    dotP x y size P = dot x y size :=
  dotP_eq_dot x y size P hP

theorem dotP_refines_dot_witness :
    1 ≤ 2 ∧ dotP (fun i => (i : ℚ) + 1) (fun i => (i : ℚ) - 3) 5 2
      = dot (fun i => (i : ℚ) + 1) (fun i => (i : ℚ) - 3) 5 :=
  ⟨by decide, dotP_refines_dot (fun i => (i : ℚ) + 1) (fun i => (i : ℚ) - 3) 5 2 (by decide)⟩

/-- C5: `conjugate_gradients` always terminates within `max_iters`
iterations.  The final value of the C variable `num_iters` is at least 1
and at most `max_iters + 1`; either the loop exhausted `max_iters`
iterations without converging (`num_iters = max_iters + 1`, so the report
of line 185 fires) or it broke out at some iteration `num_iters ≤ max_iters`
at which the convergence test held (the report of line 183 fires); the
`reportsConverged` branch distinguishes exactly these two cases. -/
theorem solve_terminates (A b x : ℕ → ℚ) (size max_iters : ℕ) (tol : ℚ) (P : ℕ) :
    1 ≤ (conjugate_gradients A b x size max_iters tol P).2 ∧
    itersTaken (conjugate_gradients A b x size max_iters tol P).2 max_iters ≤ max_iters ∧
    ((conjugate_gradients A b x size max_iters tol P).2 = max_iters + 1 ∧
        reportsConverged (conjugate_gradients A b x size max_iters tol P).2 max_iters = false ∨
      (conjugate_gradients A b x size max_iters tol P).2 ≤ max_iters ∧
        reportsConverged (conjugate_gradients A b x size max_iters tol P).2 max_iters = true ∧
        convTest (conjugate_gradients A b x size max_iters tol P).1.rr
          (dotP b b size P) tol = true) := by
  obtain ⟨h1, h2, h3⟩ := cgLoop_num_iters_spec size P (dotP b b size P) tol max_iters 1
    (cgInitState A b x size P)
  unfold conjugate_gradients
  refine ⟨h1, by unfold itersTaken; omega, ?_⟩
  rcases h3 with h3 | h3
  · refine Or.inl ⟨by omega, ?_⟩
    unfold reportsConverged
    simp only [decide_eq_false_iff_not]
    omega
  · by_cases hle : (cgLoop size P (dotP b b size P) tol max_iters 1
        (cgInitState A b x size P)).2 ≤ max_iters
    · refine Or.inr ⟨hle, ?_, h3⟩
      unfold reportsConverged
      simpa using hle
    · refine Or.inl ⟨by omega, ?_⟩
      unfold reportsConverged
      simp only [decide_eq_false_iff_not]
      omega

/-- C7: `rr` is non-negative at every iteration boundary, because in exact
arithmetic it is always an inner product of a vector with itself:
`dotP(b, b)` before the loop (and the initial `r` equals `b` on `[0, size)`,
so this is also `dotP(r, r)`), and `dotP(r, r)` after every loop body; hence
the radicand `rr/bb` of the square root is never negative in exact
arithmetic (the floating-point clamp the spec asks for is vacuous here),
and the final reported `rr` is non-negative as well. -/
theorem rr_nonneg_at_iteration_boundaries (A b x : ℕ → ℚ) (size P : ℕ) :
    ((cgInitState A b x size P).rr
        = dotP (cgInitState A b x size P).r (cgInitState A b x size P).r size P ∧
      0 ≤ (cgInitState A b x size P).rr) ∧
    (∀ s : CGState,
      (cgBody size P s).rr = dotP (cgBody size P s).r (cgBody size P s).r size P ∧
        0 ≤ (cgBody size P s).rr) ∧
    ∀ (max_iters : ℕ) (tol : ℚ),
      0 ≤ (conjugate_gradients A b x size max_iters tol P).1.rr := by
  refine ⟨⟨?_, ?_⟩, fun s => ⟨cgBody_rr_eq size P s, ?_⟩, fun max_iters tol => ?_⟩
  · show dotP b b size P = dotP _ _ size P
    exact dotP_congr b b _ _ size P (fun i hi => by simp [cgInitState, hi])
      (fun i hi => by simp [cgInitState, hi])
  · exact dotP_self_nonneg b size P
  · rw [cgBody_rr_eq size P s]
    exact dotP_self_nonneg _ size P
  · exact cgLoop_rr_nonneg size P (dotP b b size P) tol max_iters 1 _
      (dotP_self_nonneg b size P)

/-- C8: `conjugate_gradients` never writes the matrix `A` or the right-hand
side `b`: the buffers threaded through the solver state are unchanged on
return, for every input; only `x` and the solver-internal `r`, `p`, `Ap`
are updated. -/
theorem solve_preserves_A_and_b (A b x : ℕ → ℚ) (size max_iters : ℕ) (tol : ℚ) (P : ℕ) :
    (conjugate_gradients A b x size max_iters tol P).1.A = A ∧
      (conjugate_gradients A b x size max_iters tol P).1.b = b := by
  obtain ⟨h1, h2⟩ := cgLoop_frame size P (dotP b b size P) tol max_iters 1
    (cgInitState A b x size P)
  exact ⟨h1, h2⟩

/-- C9: under the precondition that `N` is an exact multiple of the
participant count `P ≥ 1`, every `local_y` write of `gemvP` is in bounds:
for every rank the rows `r ∈ [start_row, end_row)` give write indices
`r - start_row < local_num_rows` for the buffer of `local_num_rows`
elements, and the all-gather writes exactly `P · (N/P) = N` elements. -/
theorem gemvP_local_writes_in_bounds (N P : ℕ) (hP : 1 ≤ P) (hdvd : P ∣ N) :
    (∀ rank < P, ∀ r : ℕ, startRow rank N P ≤ r → r < endRow rank N P →
        r - startRow rank N P < localNumRows N P) ∧
      P * localNumRows N P = N := by
  have hN : P * localNumRows N P = N := Nat.mul_div_cancel' hdvd
  refine ⟨?_, hN⟩
  intro rank hrank r hr1 hr2
  have hend : endRow rank N P ≤ startRow rank N P + localNumRows N P := by
    unfold endRow startRow
    by_cases hcase : rank = P - 1
    · rw [if_pos hcase, hcase]
      obtain ⟨Q, rfl⟩ : ∃ Q, P = Q + 1 := ⟨P - 1, by omega⟩
      simp only [Nat.add_sub_cancel]
      calc N = (Q + 1) * localNumRows N (Q + 1) := hN.symm
        _ = Q * localNumRows N (Q + 1) + localNumRows N (Q + 1) := by ring
        _ ≤ _ := le_refl _
    · rw [if_neg hcase, Nat.succ_mul]
  have hlt : r < startRow rank N P + localNumRows N P := lt_of_lt_of_le hr2 hend
  omega

theorem gemvP_local_writes_in_bounds_witness :
    (1 ≤ 3 ∧ 3 ∣ 6) ∧
      ((∀ rank < 3, ∀ r : ℕ, startRow rank 6 3 ≤ r → r < endRow rank 6 3 →
          r - startRow rank 6 3 < localNumRows 6 3) ∧
        3 * localNumRows 6 3 = 6) :=
  ⟨⟨by decide, by decide⟩, gemvP_local_writes_in_bounds 6 3 (by decide) (by decide)⟩

/-- C10: with `max_iters = 0` the loop body never runs: `num_iters` keeps
its initial value 1, rank 0 reports "Did not converge", `x_out` is the zero
vector on `[0, size)`, the final `rr` is still `bb = dotP(b, b)`, and when
`bb ≠ 0` the reported relative residual radicand `rr / bb` equals 1 (so
`sqrt(rr/bb) = 1`). -/
theorem max_iters_zero_returns_zero_vector (A b x : ℕ → ℚ) (size : ℕ) (tol : ℚ) (P : ℕ)
    (hbb : dotP b b size P ≠ 0) :
    (conjugate_gradients A b x size 0 tol P).2 = 1 ∧
    reportsConverged (conjugate_gradients A b x size 0 tol P).2 0 = false ∧
    (∀ i < size, (conjugate_gradients A b x size 0 tol P).1.x i = 0) ∧
    (conjugate_gradients A b x size 0 tol P).1.rr = dotP b b size P ∧
    (conjugate_gradients A b x size 0 tol P).1.rr / dotP b b size P = 1 := by
  have hres : conjugate_gradients A b x size 0 tol P = (cgInitState A b x size P, 1) := rfl
  rw [hres]
  refine ⟨rfl, rfl, ?_, rfl, ?_⟩
  · intro i hi
    simp [cgInitState, hi]
  · show (cgInitState A b x size P).rr / dotP b b size P = 1
    rw [cgInit_rr]
    exact div_self hbb

theorem max_iters_zero_returns_zero_vector_witness :
    dotP (fun _ : ℕ => (3 : ℚ)) (fun _ : ℕ => (3 : ℚ)) 1 1 ≠ 0 ∧
      ((conjugate_gradients (fun _ => 2) (fun _ : ℕ => (3 : ℚ)) (fun _ => 9) 1 0 (1/2) 1).2 = 1 ∧
      reportsConverged
        (conjugate_gradients (fun _ => 2) (fun _ : ℕ => (3 : ℚ)) (fun _ => 9) 1 0 (1/2) 1).2 0
          = false ∧
      (∀ i < 1,
        (conjugate_gradients (fun _ => 2) (fun _ : ℕ => (3 : ℚ)) (fun _ => 9) 1 0 (1/2) 1).1.x i
          = 0) ∧
      (conjugate_gradients (fun _ => 2) (fun _ : ℕ => (3 : ℚ)) (fun _ => 9) 1 0 (1/2) 1).1.rr
          = dotP (fun _ : ℕ => (3 : ℚ)) (fun _ : ℕ => (3 : ℚ)) 1 1 ∧
      (conjugate_gradients (fun _ => 2) (fun _ : ℕ => (3 : ℚ)) (fun _ => 9) 1 0 (1/2) 1).1.rr
          / dotP (fun _ : ℕ => (3 : ℚ)) (fun _ : ℕ => (3 : ℚ)) 1 1 = 1) :=
  ⟨by norm_num [dotP, segStart, segEnd, Finset.sum_Ico_eq_sum_range, Finset.sum_range_succ],
    max_iters_zero_returns_zero_vector (fun _ => 2) (fun _ : ℕ => (3 : ℚ)) (fun _ => 9) 1 (1/2) 1
      (by norm_num [dotP, segStart, segEnd, Finset.sum_Ico_eq_sum_range, Finset.sum_range_succ])⟩

/-- C1 counterexample: at `A = [[1]]`, `b = [0]`, `N = 1`, `max_iters = 1`,
`rel_tol = 1`, `P = 1` we have `bb = dot(b,b) = 0`, yet the solver does not
return immediately with 0 iterations: the loop body executes once (the C
source has no early exit on `bb = 0`), so the number of executed iterations
is 1, not 0. -/
theorem zero_rhs_claim_counterexample :
    dotP (fun _ : ℕ => (0 : ℚ)) (fun _ : ℕ => (0 : ℚ)) 1 1 = 0 ∧
      itersTaken
        (conjugate_gradients (fun _ => 1) (fun _ : ℕ => (0 : ℚ)) (fun _ => 0) 1 1 1 1).2 1
        ≠ 0 := by
  norm_num [conjugate_gradients, cgInitState, cgLoop, cgBody, gemvP, allGather, gemvLocal,
    dotP, dot, axpby, convTest, segStart, segEnd, startRow, localNumRows, itersTaken,
    Finset.sum_Ico_eq_sum_range, Finset.sum_range_succ]

/-- C1 amended: the source has no early exit on `bb = 0`.  Instead, when
`b` is the zero vector (so `bb = 0`), `rel_tol > 0` and `max_iters ≥ 1`, the
exact-arithmetic model (where `0/0 = 0`) executes exactly one iteration
(`num_iters = 1`, matching the spec's fallback "≤ 1 if the early-exit on
bb=0 is omitted") and returns `x_out` equal to the zero vector, for every
matrix `A` and every participant count `P`. -/
theorem zero_rhs_one_iteration (A b x : ℕ → ℚ) (size max_iters : ℕ) (tol : ℚ) (P : ℕ)
    (hb : ∀ i < size, b i = 0) (ht : 0 < tol) (hm : 1 ≤ max_iters) :
    (conjugate_gradients A b x size max_iters tol P).2 = 1 ∧
      ∀ i < size, (conjugate_gradients A b x size max_iters tol P).1.x i = 0 := by
  obtain ⟨m, rfl⟩ : ∃ m, max_iters = m + 1 := ⟨max_iters - 1, by omega⟩
  have hbb : dotP b b size P = 0 := dotP_eq_zero b b size P hb
  have halpha : (cgInitState A b x size P).rr
      / dotP (cgInitState A b x size P).p
          (gemvP 1 (cgInitState A b x size P).A (cgInitState A b x size P).p 0
            (cgInitState A b x size P).Ap size size P) size P = 0 := by
    rw [cgInit_rr, hbb]
    exact zero_div _
  have hx : ∀ i < size, (cgBody size P (cgInitState A b x size P)).x i = 0 := by
    intro i hi
    rw [cgBody_x_eq, halpha]
    simp [axpby, cgInit_x, cgInit_p, hi]
  have hr : ∀ i < size, (cgBody size P (cgInitState A b x size P)).r i = 0 := by
    intro i hi
    rw [cgBody_r_eq, halpha]
    simp [axpby, cgInit_r, hi, hb i hi]
  have hrrt : (cgBody size P (cgInitState A b x size P)).rr = 0 := by
    rw [cgBody_rr_eq]
    exact dotP_eq_zero _ _ size P hr
  have htest : convTest (cgBody size P (cgInitState A b x size P)).rr
      (dotP b b size P) tol = true := by
    rw [hrrt]
    exact convTest_zero_rr _ tol ht
  unfold conjugate_gradients
  simp only [cgLoop]
  rw [if_pos htest]
  exact ⟨rfl, hx⟩

theorem zero_rhs_one_iteration_witness :
    ((∀ i < 2, (fun _ : ℕ => (0 : ℚ)) i = 0) ∧ (0 : ℚ) < 1/4 ∧ 1 ≤ 3) ∧
      ((conjugate_gradients (fun _ => 5) (fun _ : ℕ => (0 : ℚ)) (fun _ => 7) 2 3 (1/4) 2).2 = 1 ∧
        ∀ i < 2,
          (conjugate_gradients (fun _ => 5) (fun _ : ℕ => (0 : ℚ)) (fun _ => 7) 2 3 (1/4) 2).1.x i
            = 0) :=
  ⟨⟨by decide, by norm_num, by decide⟩,
    zero_rhs_one_iteration (fun _ => 5) (fun _ : ℕ => (0 : ℚ)) (fun _ => 7) 2 3 (1/4) 2
      (by decide) (by norm_num) (by decide)⟩

/-- C6 counterexample: `rel_tol = 0` satisfies the claim's premise
`rel_tol < 1`, with `A` the 1×1 identity, `b = [2] ≠ 0` and `max_iters = 2`
(and `P = 1`).  The first iteration makes the residual exactly zero, but
`sqrt(0/1) = 0 < 0` is false, so the loop does not stop: it runs both
iterations (2, not exactly 1). -/
theorem identity_claim_counterexample :
    ((0 : ℚ) < 1 ∧ (2 : ℚ) ≠ 0) ∧
      itersTaken
        (conjugate_gradients (fun _ => 1) (fun _ : ℕ => (2 : ℚ)) (fun _ => 0) 1 2 0 1).2 2
        = 2 := by
  norm_num [conjugate_gradients, cgInitState, cgLoop, cgBody, gemvP, allGather, gemvLocal,
    dotP, dot, axpby, convTest, segStart, segEnd, startRow, localNumRows, itersTaken,
    Finset.sum_Ico_eq_sum_range, Finset.sum_range_succ]

/-- C6 amended: for `A` the `N×N` identity, `b` nonzero, `P ≥ 1` dividing
`N`, `max_iters ≥ 1` and `0 < rel_tol` (the claim's `rel_tol < 1` is not
enough: at `rel_tol = 0` the strict test `sqrt(rr/bb) < rel_tol` never
fires), solve returns `x = b` and terminates in exactly one iteration
(`num_iters = 1`; in exact arithmetic `alpha = 1` and the residual becomes
the zero vector after the first iteration). -/
theorem identity_solved_in_one_iteration (A b x : ℕ → ℚ) (size max_iters : ℕ)
    (tol : ℚ) (P : ℕ) (hP : 1 ≤ P) (hdvd : P ∣ size)
    (hA : ∀ i < size, ∀ c < size, A (i * size + c) = if i = c then 1 else 0)
    (hb : ∃ j, j < size ∧ b j ≠ 0) (ht : 0 < tol) (hm : 1 ≤ max_iters) :
    (conjugate_gradients A b x size max_iters tol P).2 = 1 ∧
      ∀ i < size, (conjugate_gradients A b x size max_iters tol P).1.x i = b i := by
  obtain ⟨m, rfl⟩ : ∃ m, max_iters = m + 1 := ⟨max_iters - 1, by omega⟩
  obtain ⟨j, hj, hbj⟩ := hb
  have hbbpos : 0 < dot b b size :=
    Finset.sum_pos' (fun i _ => mul_self_nonneg _)
      ⟨j, Finset.mem_range.mpr hj, mul_self_pos.mpr hbj⟩
  have hbbP : dotP b b size P = dot b b size := dotP_eq_dot b b size P hP
  have hbbne : dot b b size ≠ 0 := ne_of_gt hbbpos
  have hAp : ∀ i < size,
      gemvP 1 (cgInitState A b x size P).A (cgInitState A b x size P).p 0
        (cgInitState A b x size P).Ap size size P i = b i := by
    intro i hi
    rw [gemvP_spec 1 0 _ _ _ size P hdvd i hi]
    simp only [cgInit_A, cgInit_p, cgInit_Ap, matvec, zero_mul, one_mul, add_zero, zero_add]
    have hterm : ∀ c ∈ Finset.range size,
        A (i * size + c) * (if c < size then b c else 0) = if i = c then b c else 0 := by
      intro c hc
      have hc' : c < size := Finset.mem_range.mp hc
      rw [if_pos hc', hA i hi c hc', ite_mul, one_mul, zero_mul]
    rw [Finset.sum_congr rfl hterm, Finset.sum_ite_eq]
    rw [if_pos (Finset.mem_range.mpr hi)]
  have hpAp : dotP (cgInitState A b x size P).p
      (gemvP 1 (cgInitState A b x size P).A (cgInitState A b x size P).p 0
        (cgInitState A b x size P).Ap size size P) size P = dot b b size := by
    rw [dotP_eq_dot _ _ _ _ hP]
    exact dot_congr _ _ b b size (fun i hi => by simp [cgInit_p, hi]) hAp
  have halpha : (cgInitState A b x size P).rr
      / dotP (cgInitState A b x size P).p
          (gemvP 1 (cgInitState A b x size P).A (cgInitState A b x size P).p 0
            (cgInitState A b x size P).Ap size size P) size P = 1 := by
    rw [cgInit_rr, hpAp, hbbP]
    exact div_self hbbne
  have hx : ∀ i < size, (cgBody size P (cgInitState A b x size P)).x i = b i := by
    intro i hi
    rw [cgBody_x_eq, halpha]
    simp [axpby, cgInit_p, cgInit_x, hi]
  have hr : ∀ i < size, (cgBody size P (cgInitState A b x size P)).r i = 0 := by
    intro i hi
    rw [cgBody_r_eq, halpha]
    simp [axpby, hi, hAp i hi, cgInit_r]
  have hrrt : (cgBody size P (cgInitState A b x size P)).rr = 0 := by
    rw [cgBody_rr_eq]
    exact dotP_eq_zero _ _ size P hr
  have htest : convTest (cgBody size P (cgInitState A b x size P)).rr
      (dotP b b size P) tol = true := by
    rw [hrrt]
    exact convTest_zero_rr _ tol ht
  unfold conjugate_gradients
  simp only [cgLoop]
  rw [if_pos htest]
  exact ⟨rfl, hx⟩

theorem identity_solved_in_one_iteration_witness :
    ((1 ≤ 1 ∧ 1 ∣ 1) ∧ (0 : ℚ) < 1/2 ∧ (2 : ℚ) ≠ 0) ∧
      ((conjugate_gradients (fun _ => 1) (fun _ : ℕ => (2 : ℚ)) (fun _ => 0) 1 1 (1/2) 1).2 = 1 ∧
        ∀ i < 1,
          (conjugate_gradients (fun _ => 1) (fun _ : ℕ => (2 : ℚ)) (fun _ => 0) 1 1 (1/2) 1).1.x i
            = 2) :=
  ⟨⟨⟨by decide, by decide⟩, by norm_num, by norm_num⟩,
    identity_solved_in_one_iteration (fun _ => 1) (fun _ : ℕ => (2 : ℚ)) (fun _ => 0) 1 1
      (1/2) 1 (by decide) (by decide)
      (by
        intro i hi c hc
        have hi0 : i = 0 := by omega
        have hc0 : c = 0 := by omega
        subst hi0
        subst hc0
        norm_num)
      ⟨0, by decide, by norm_num⟩ (by norm_num) (by decide)⟩

/-- C2: one iteration of the loop (with `P ≥ 1` participants and `P ∣ size`)
computes, in source order: `Ap = A·p`; `alpha = rr / dot(p, Ap)`;
`x = x + alpha·p`; `r = r - alpha·Ap`; `rr_new = dot(r, r)`;
`beta = rr_new / rr`; then tests the relative residual.  If the test holds
the loop terminates before updating `p` (the returned state is the body's
state: `x` is the one written by this iteration's x-update, `p` is
untouched, `num_iters` keeps the current iteration index); otherwise the
iteration ends by updating `p = r + beta·p` and the loop continues with
`num_iters + 1`.  All vector equalities are elementwise on `[0, size)`,
with the serial `dot`/`matvec` as the exact-arithmetic meaning of the
distributed `dotP`/`gemvP`. -/
theorem cg_iteration_dataflow (size P : ℕ) (hP : 1 ≤ P) (hdvd : P ∣ size)
    (bb tol : ℚ) (remaining num_iters : ℕ) (s : CGState) :
    let Ap := matvec s.A s.p size
    let alpha := s.rr / dot s.p Ap size
    let x' : ℕ → ℚ := fun i => s.x i + alpha * s.p i
    let r' : ℕ → ℚ := fun i => s.r i - alpha * Ap i
    let rr_new := dot r' r' size
    let beta := rr_new / s.rr
    (∀ i < size, (cgBody size P s).Ap i = Ap i) ∧
    (∀ i < size, (cgBody size P s).x i = x' i) ∧
    (∀ i < size, (cgBody size P s).r i = r' i) ∧
    (cgBody size P s).p = s.p ∧
    (cgBody size P s).rr = rr_new ∧
    (convTest rr_new bb tol = true →
      cgLoop size P bb tol (remaining + 1) num_iters s = (cgBody size P s, num_iters)) ∧
    (convTest rr_new bb tol = false →
      ∃ t : CGState,
        cgLoop size P bb tol (remaining + 1) num_iters s
            = cgLoop size P bb tol remaining (num_iters + 1) t ∧
          (∀ i < size, t.x i = x' i) ∧ (∀ i < size, t.r i = r' i) ∧
          (∀ i < size, t.p i = r' i + beta * s.p i) ∧ t.rr = rr_new) := by
  intro Ap alpha x' r' rr_new beta
  have hAp : ∀ i < size, gemvP 1 s.A s.p 0 s.Ap size size P i = Ap i := by
    intro i hi
    rw [gemvP_spec 1 0 s.A s.p s.Ap size P hdvd i hi]
    show 0 * s.Ap i + 1 * matvec s.A s.p size i = Ap i
    ring
  have hAp' : (cgBody size P s).Ap = gemvP 1 s.A s.p 0 s.Ap size size P := cgBody_Ap_eq size P s
  have hdotpAp : dotP s.p (gemvP 1 s.A s.p 0 s.Ap size size P) size P = dot s.p Ap size := by
    rw [dotP_eq_dot _ _ _ _ hP]
    exact dot_congr _ _ _ _ size (fun _ _ => rfl) hAp
  have halpha : s.rr / dotP s.p (gemvP 1 s.A s.p 0 s.Ap size size P) size P = alpha := by
    rw [hdotpAp]
  have hx : ∀ i < size, (cgBody size P s).x i = x' i := by
    intro i hi
    rw [cgBody_x_eq, halpha]
    show (if i < size then alpha * s.p i + 1 * s.x i else s.x i) = x' i
    rw [if_pos hi]
    show alpha * s.p i + 1 * s.x i = s.x i + alpha * s.p i
    ring
  have hr : ∀ i < size, (cgBody size P s).r i = r' i := by
    intro i hi
    rw [cgBody_r_eq, halpha]
    show (if i < size then -alpha * gemvP 1 s.A s.p 0 s.Ap size size P i + 1 * s.r i
        else s.r i) = r' i
    rw [if_pos hi, hAp i hi]
    show -alpha * Ap i + 1 * s.r i = s.r i - alpha * Ap i
    ring
  have hrr : (cgBody size P s).rr = rr_new := by
    rw [cgBody_rr_eq]
    rw [dotP_eq_dot _ _ _ _ hP]
    exact dot_congr _ _ _ _ size hr hr
  refine ⟨fun i hi => by rw [hAp']; exact hAp i hi, hx, hr, cgBody_p_eq size P s, hrr,
    ?_, ?_⟩
  · intro htest
    have htest' : convTest (cgBody size P s).rr bb tol = true := by rw [hrr]; exact htest
    simp only [cgLoop]
    rw [if_pos htest']
  · intro htest
    have htest' : ¬convTest (cgBody size P s).rr bb tol = true := by
      rw [hrr, htest]
      exact Bool.false_ne_true
    refine ⟨{ cgBody size P s with
        p := axpby 1 (cgBody size P s).r ((cgBody size P s).rr / s.rr)
          (cgBody size P s).p size }, ?_, hx, hr, ?_, hrr⟩
    · simp only [cgLoop]
      rw [if_neg htest']
    · intro i hi
      show (if i < size then 1 * (cgBody size P s).r i
          + (cgBody size P s).rr / s.rr * (cgBody size P s).p i
          else (cgBody size P s).p i) = r' i + beta * s.p i
      rw [if_pos hi, hr i hi, hrr, cgBody_p_eq]
      ring

def s1State : CGState :=
  { A := fun _ => 4, b := fun _ => 8, x := fun _ => 0, r := fun _ => 8,
    p := fun _ => 8, Ap := fun _ => 0, rr := 64 }

def s1Residual : ℕ → ℚ := fun i =>
  s1State.r i
    - s1State.rr / dot s1State.p (matvec s1State.A s1State.p 1) 1
      * matvec s1State.A s1State.p 1 i

theorem cg_iteration_dataflow_witness :
    ((1 ≤ 1 ∧ 1 ∣ 1) ∧ convTest (dot s1Residual s1Residual 1) 64 (1/2) = true) ∧
      cgLoop 1 1 64 (1/2) 1 1 s1State = (cgBody 1 1 s1State, 1) :=
  ⟨⟨⟨by decide, by decide⟩,
      by norm_num [s1Residual, s1State, dot, matvec, convTest, Finset.sum_range_succ]⟩,
    (cg_iteration_dataflow 1 1 (by decide) (by decide) 64 (1/2) 0 1 s1State).2.2.2.2.2.1
      (by norm_num [s1State, dot, matvec, convTest, Finset.sum_range_succ])⟩

end CG
